import Mathlib

/-!
# Verification of the kedro-azureml pipeline lowering engine

Shallow embedding of `src/kedro_azureml/generator.py`
(`AzureMLPipelineGenerator`): the name sanitizers, the per-node command
construction (`_construct_azure_command` / `_prepare_command`), the graph
wiring (`_connect_commands`) and the pipeline-output resolution
(`_gather_pipeline_outputs`), together with theorems about them.

Python strings are modelled as Lean `String`s over their character lists;
`str.lower()` is modelled on the ASCII range (the only range the
sanitization character class `[a-z0-9_]` can retain).  Python `dict`s are
modelled as association lists in insertion order, with lookup returning the
most recently inserted value for a key (Python's overwrite-on-reinsert
semantics).
-/

namespace KedroAzureML

/-! ## Name sanitizers -/

/-- ASCII lower-casing of one character, modelling Python `str.lower()`
(codepoints 65–90 shift by 32, everything else is unchanged). -/
def pyLowerChar (c : Char) : Char :=
  if 65 ≤ c.toNat ∧ c.toNat ≤ 90 then Char.ofNat (c.toNat + 32) else c

/-- `s.lower()` applied characterwise. -/
def pyLower (s : String) : String :=
  String.mk (s.data.map pyLowerChar)

/-- Membership in the regex character class `[a-z0-9_]`
(codepoints 97–122, 48–57 and 95). -/
def isAllowedChar (c : Char) : Bool :=
  (97 ≤ c.toNat && c.toNat ≤ 122) || (48 ≤ c.toNat && c.toNat ≤ 57) || c.toNat == 95

/-- `re.sub(r"[^a-z0-9_]", "_", s)` applied characterwise. -/
def reSubDisallowed (s : String) : String :=
  String.mk (s.data.map (fun c => if isAllowedChar c then c else '_'))

/-- `AzureMLPipelineGenerator._sanitize_param_name`:
`re.sub(r"[^a-z0-9_]", "_", param_name.lower())`. -/
def sanitizeParamName (s : String) : String :=
  reSubDisallowed (pyLower s)

/-- `AzureMLPipelineGenerator._sanitize_azure_name`:
`name.lower().replace(".", "__")`; the single-character pattern `.` makes
`str.replace` the characterwise expansion of `'.'` to `"__"`. -/
def sanitizeAzureName (s : String) : String :=
  String.mk ((pyLower s).data.flatMap (fun c => if c = '.' then ['_', '_'] else [c]))

/-! ## Basic character lemmas -/

lemma pyLowerChar_of_allowed (c : Char) (h : isAllowedChar c = true) :
    pyLowerChar c = c := by
  unfold pyLowerChar
  unfold isAllowedChar at h
  simp only [Bool.or_eq_true, Bool.and_eq_true, decide_eq_true_eq, beq_iff_eq] at h
  rw [if_neg]
  omega

lemma isAllowedChar_underscore : isAllowedChar '_' = true := by decide

/-- The character-level effect of `_sanitize_param_name`. -/
def sanitizeParamChar (c : Char) : Char :=
  if isAllowedChar (pyLowerChar c) then pyLowerChar c else '_'

lemma sanitizeParamName_data (s : String) :
    (sanitizeParamName s).data = s.data.map sanitizeParamChar := by
  simp only [sanitizeParamName, reSubDisallowed, pyLower, List.map_map]
  exact List.map_congr_left (fun a _ => rfl)

lemma isAllowedChar_sanitizeParamChar (c : Char) :
    isAllowedChar (sanitizeParamChar c) = true := by
  unfold sanitizeParamChar
  by_cases h : isAllowedChar (pyLowerChar c) = true
  · simp [h]
  · simp [h, isAllowedChar_underscore]

lemma sanitizeParamChar_of_allowed (c : Char) (h : isAllowedChar c = true) :
    sanitizeParamChar c = c := by
  unfold sanitizeParamChar
  rw [pyLowerChar_of_allowed c h, if_pos h]

lemma sanitizeParamChar_idem (c : Char) :
    sanitizeParamChar (sanitizeParamChar c) = sanitizeParamChar c :=
  sanitizeParamChar_of_allowed _ (isAllowedChar_sanitizeParamChar c)

lemma String.data_ext {a b : String} (h : a.data = b.data) : a = b := by
  cases a; cases b; simp_all

/-! ## Data model

`Node` mirrors `kedro.pipeline.node.Node` at the interface the generator
uses: a name and lists of input and output dataset names.  `Pipeline`
mirrors `kedro.pipeline.Pipeline` at the same interface: `nodes` is the
node list in the order the generator iterates it (`pipeline.nodes`, sorted
topologically per the source comment), `externalInputs` models
`pipeline.inputs()` (the declared pipeline-external input dataset names)
and `declaredOutputs` models `pipeline.outputs()` (the declared
pipeline-level output dataset names). -/

structure Node where
  name : String
  inputs : List String
  outputs : List String
deriving DecidableEq, Repr

structure Pipeline where
  nodes : List Node
  externalInputs : List String
  declaredOutputs : List String
deriving DecidableEq, Repr

/-- `pipeline.node_dependencies[n]` (computed by kedro, an external
collaborator): the nodes of the pipeline that produce at least one of
`n`'s inputs — the spec's dependency map. -/
def nodeDependencies (pl : Pipeline) (n : Node) : List Node :=
  pl.nodes.filter (fun d => d.outputs.any (fun o => n.inputs.contains o))

/-- An Azure ML `Input` declaration: `Input(type="string")` for
pipeline-external datasets, plain `Input()` (opaque artifact) otherwise. -/
inductive AzInputDecl where
  | stringInput
  | genericInput
deriving DecidableEq, Repr

/-- The Azure ML `command(...)` descriptor built by
`_construct_azure_command`.  The `inputs`/`outputs` keyword dicts are
association lists in insertion order; the `outputs` dict's values are all
the argumentless `Output()`, so only its keys are modelled. -/
structure AzCommand where
  name : String
  display_name : String
  command : String
  environment_variables : List (String × String)
  image : String
  inputs : List (String × AzInputDecl)
  outputs : List String
deriving DecidableEq, Repr

/-- The `AzureMLPipelineGenerator` constructor arguments the lowering
uses.  `temporary_storage` and `default_docker_image` stand for
`config.azure.temporary_storage` and `config.docker.image` of the
`KedroAzureMLConfig` (the `kedro_azureml.config` module is not under
`src/`; per the spec the temporary-storage location is a backend-specific
URI string). -/
structure GeneratorCfg where
  pipeline_name : String
  kedro_environment : String
  docker_image : Option String
  storage_account_key : String
  temporary_storage : String
  default_docker_image : String
deriving DecidableEq, Repr

/-- Modelled from the spec: `KedroAzureRunnerConfig(...).json()` lives in
the `kedro_azureml.config` module, which is not under `src/`.  Per the
spec it is a JSON object with the temporary-storage location, the run
identifier and the optional storage credential, serialized
deterministically with fixed field order and formatting. -/
def kedroAzureRunnerConfigJson (temporary_storage run_id storage_account_key : String) :
    String :=
  "\x7b\"temporary_storage\": \"" ++ temporary_storage ++ "\", \"run_id\": \"" ++ run_id
    ++ "\", \"storage_account_key\": \"" ++ storage_account_key ++ "\"\x7d"

/-- Python `x or y` restricted to `Optional[str] or str`: the left operand
is returned when it is truthy (not `None` and non-empty), else the right. -/
def pyOrStr : Option String → String → String
  | none, d => d
  | some s, d => if s = "" then d else s

/-- The fixed single-node invocation prefix of `_prepare_command`'s
f-string: run exactly one named node of one pipeline under one kedro
environment with the single-node Azure runner. -/
def nodeInvocation (kedro_environment pipeline_name node_name : String) : String :=
  "cd /home/kedro && kedro run -e " ++ kedro_environment
    ++ " --pipeline=" ++ pipeline_name
    ++ " --node=" ++ node_name
    ++ " --runner=kedroazureml.azurerunner.AzurePipelinesRunner"

/-- One element of `_prepare_command`'s list comprehension: write the
constant placeholder text into the named output's location. -/
def placeholderWrite (dataset_name : String) : String :=
  "echo \x27Show must go on!\x27 > $\x7b\x7boutputs."
    ++ sanitizeParamName dataset_name ++ "\x7d\x7d/output.txt"

/-- `AzureMLPipelineGenerator._prepare_command`: the f-string invocation
plus, when `node.outputs` is truthy (non-empty), `" && "` followed by the
`" && ".join(...)` of the placeholder writes. -/
def prepareCommand (kedro_environment pipeline_name : String) (node : Node) : String :=
  nodeInvocation kedro_environment pipeline_name node.name
    ++ (if node.outputs.isEmpty then ""
        else " && " ++ String.intercalate " && " (node.outputs.map placeholderWrite))

/-- `AzureMLPipelineGenerator._construct_azure_command`. -/
def constructAzureCommand (cfg : GeneratorCfg) (pl : Pipeline) (node : Node)
    (kedro_azure_run_id : String) : AzCommand :=
  { name := sanitizeAzureName node.name
    display_name := node.name
    command := prepareCommand cfg.kedro_environment cfg.pipeline_name node
    environment_variables :=
      [("KEDRO_AZURE_RUNNER_CONFIG",
        kedroAzureRunnerConfigJson cfg.temporary_storage kedro_azure_run_id
          cfg.storage_account_key)]
    image := pyOrStr cfg.docker_image cfg.default_docker_image
    inputs := node.inputs.map (fun nm =>
      (sanitizeParamName nm,
       if pl.externalInputs.contains nm then AzInputDecl.stringInput
       else AzInputDecl.genericInput))
    outputs := node.outputs.map sanitizeParamName }

/-! ## Python dict model

Association lists in insertion order; `dictLookup` returns the value of
the most recent insertion for a key, matching Python's
overwrite-on-reinsert dict semantics. -/

def dictLookup {α : Type} (k : String) (l : List (String × α)) : Option α :=
  (l.reverse.find? (fun p => p.1 == k)).map (fun p => p.2)

/-! ## Graph wiring (`_connect_commands`)

A wired input binding is either the output handle of an upstream invoked
component (`parent_outputs[sanitized_input_name]`, identified by the
producing step's name and the output parameter name) or the raw dataset
name passed through as a dummy literal. -/

inductive Binding where
  | fromStep (step : String) (param : String)
  | raw (dataset : String)
deriving DecidableEq, Repr

/-- An invoked component: the command descriptor together with the keyword
arguments (`azure_inputs`) it was invoked with. -/
structure WiredStep where
  cmd : AzCommand
  bindings : List (String × Binding)
deriving DecidableEq, Repr

/-- The body of `_connect_commands`'s inner loop for one `node_input`:
search the dependency set for a producer; if found, look up its invoked
component and take its output handle for the sanitized name (`none`
models the `KeyError` Python would raise on a missing key); otherwise
fall back to the raw dataset name. -/
def resolveInput (deps : List Node) (invoked : List (String × WiredStep))
    (node_input : String) : Option Binding :=
  match deps.find? (fun d => d.outputs.contains node_input) with
  | some d =>
    match dictLookup d.name invoked with
    | some parent =>
      if parent.cmd.outputs.contains (sanitizeParamName node_input) then
        some (Binding.fromStep d.name (sanitizeParamName node_input))
      else none
    | none => none
  | none => some (Binding.raw node_input)

/-- The `azure_inputs` dict built over `node.inputs` in order. -/
def resolveInputs (deps : List Node) (invoked : List (String × WiredStep)) :
    List String → Option (List (String × Binding))
  | [] => some []
  | i :: is =>
    match resolveInput deps invoked i with
    | none => none
    | some b =>
      match resolveInputs deps invoked is with
      | none => none
      | some bs => some ((sanitizeParamName i, b) :: bs)

/-- The loop of `_connect_commands` over `pipeline.nodes`, carrying the
`invoked_components` dict built so far. -/
def connectAux (pl : Pipeline) (commands : List (String × AzCommand))
    (acc : List (String × WiredStep)) : List Node → Option (List (String × WiredStep))
  | [] => some acc
  | n :: rest =>
    match dictLookup n.name commands with
    | none => none
    | some cmd =>
      match resolveInputs (nodeDependencies pl n) acc n.inputs with
      | none => none
      | some bs => connectAux pl commands (acc ++ [(n.name, ⟨cmd, bs⟩)]) rest

/-- `AzureMLPipelineGenerator._connect_commands`. -/
def connectCommands (pl : Pipeline) (commands : List (String × AzCommand)) :
    Option (List (String × WiredStep)) :=
  connectAux pl commands [] pl.nodes

/-- The `commands` dict built by the loop in `generate`:
`commands[node.name] = self._construct_azure_command(pipeline, node, run_id)`. -/
def buildCommands (cfg : GeneratorCfg) (pl : Pipeline) (kedro_azure_run_id : String) :
    List (String × AzCommand) :=
  pl.nodes.map (fun n => (n.name, constructAzureCommand cfg pl n kedro_azure_run_id))

/-- `generate` up to and including the wiring stage. -/
def generateWired (cfg : GeneratorCfg) (pl : Pipeline) (kedro_azure_run_id : String) :
    Option (List (String × WiredStep)) :=
  connectCommands pl (buildCommands cfg pl kedro_azure_run_id)

/-! ## Pipeline-output resolution (`_gather_pipeline_outputs`) -/

/-- The exceptions `_gather_pipeline_outputs` can raise: the explicit
`ValueError` naming the dataset with no producing node, or the `KeyError`
Python would raise on a missing dict key. -/
inductive GatherError where
  | missingProducer (dataset : String)
  | keyError
deriving DecidableEq, Repr

/-- `AzureMLPipelineGenerator._gather_pipeline_outputs`'s loop: for each
declared pipeline output, find the first node producing it (raise a
`missingProducer` error naming it when there is none) and record the
producing step's output handle under the sanitized output name. -/
def gatherAux (pl : Pipeline) (invoked : List (String × WiredStep)) :
    List String → Except GatherError (List (String × Binding))
  | [] => Except.ok []
  | o :: os =>
    match pl.nodes.find? (fun n => n.outputs.contains o) with
    | none => Except.error (GatherError.missingProducer o)
    | some src =>
      match dictLookup src.name invoked with
      | none => Except.error GatherError.keyError
      | some w =>
        if w.cmd.outputs.contains (sanitizeParamName o) then
          match gatherAux pl invoked os with
          | Except.error e => Except.error e
          | Except.ok rest =>
            Except.ok ((sanitizeParamName o,
              Binding.fromStep src.name (sanitizeParamName o)) :: rest)
        else Except.error GatherError.keyError

/-- `_gather_pipeline_outputs` over `pipeline.outputs()`. -/
def gatherPipelineOutputs (pl : Pipeline) (invoked : List (String × WiredStep)) :
    Except GatherError (List (String × Binding)) :=
  gatherAux pl invoked pl.declaredOutputs

/-! ## Dictionary lemmas -/

lemma find?_key_of_nodup {α : Type} {l : List (String × α)}
    (hn : (l.map Prod.fst).Nodup) {k : String} {v : α} (hm : (k, v) ∈ l) :
    l.find? (fun p => p.1 == k) = some (k, v) := by
  induction l with
  | nil => simp at hm
  | cons hd tl ih =>
    simp only [List.map_cons, List.nodup_cons] at hn
    rcases hn with ⟨hk, hn⟩
    rcases List.mem_cons.mp hm with he | hm
    · subst he
      simp [List.find?]
    · have hne : (hd.1 == k) = false := by
        have : k ∈ tl.map Prod.fst := List.mem_map_of_mem Prod.fst hm
        simp only [beq_eq_false_iff_ne, ne_eq]
        intro he
        exact hk (he ▸ this)
      simp only [List.find?, hne]
      exact ih hn hm

lemma dictLookup_eq_some_mem {α : Type} {l : List (String × α)} {k : String} {v : α}
    (h : dictLookup k l = some v) : (k, v) ∈ l := by
  unfold dictLookup at h
  cases hf : l.reverse.find? (fun p => p.1 == k) with
  | none => rw [hf] at h; exact absurd h (by simp)
  | some q =>
    rw [hf] at h
    simp only [Option.map_some'] at h
    have hp := List.find?_some hf
    have hm : q ∈ l := List.mem_reverse.mp (List.mem_of_find?_eq_some hf)
    have he : q = (k, v) := by
      rcases q with ⟨qk, qv⟩
      simp only [beq_iff_eq] at hp
      simp only at h hp
      rw [hp, Option.some.inj h]
    exact he ▸ hm

lemma dictLookup_of_nodup_mem {α : Type} {l : List (String × α)}
    (hn : (l.map Prod.fst).Nodup) {k : String} {v : α} (hm : (k, v) ∈ l) :
    dictLookup k l = some v := by
  unfold dictLookup
  have hn' : (l.reverse.map Prod.fst).Nodup := by
    rw [List.map_reverse, List.nodup_reverse]
    exact hn
  rw [find?_key_of_nodup hn' (List.mem_reverse.mpr hm)]
  rfl

lemma dictLookup_buildCommands (cfg : GeneratorCfg) {pl : Pipeline} (rid : String)
    (hn : (pl.nodes.map Node.name).Nodup) {n : Node} (hm : n ∈ pl.nodes) :
    dictLookup n.name (buildCommands cfg pl rid)
      = some (constructAzureCommand cfg pl n rid) := by
  apply dictLookup_of_nodup_mem
  · unfold buildCommands
    rw [List.map_map]
    exact hn
  · exact List.mem_map_of_mem _ hm

/-! ## The binding each node input receives -/

/-- What `_connect_commands` binds one node input to: when the dependency
search finds a producer (the first dependency listing the dataset among
its outputs), the producer's output handle under the sanitized dataset
name; when it finds none, the raw, unsanitized dataset name. -/
def bindingSpec (deps : List Node) (x : String) (b : Binding) : Prop :=
  (∀ d, deps.find? (fun d => d.outputs.contains x) = some d →
      b = Binding.fromStep d.name (sanitizeParamName x)) ∧
  (deps.find? (fun d => d.outputs.contains x) = none → b = Binding.raw x)

lemma resolveInput_spec {deps : List Node} {invoked : List (String × WiredStep)}
    {x : String} {b : Binding} (h : resolveInput deps invoked x = some b) :
    bindingSpec deps x b := by
  unfold resolveInput at h
  split at h
  · rename_i d hf
    refine ⟨fun d' hd' => ?_, fun hn => absurd (hf ▸ hn) (by simp)⟩
    have hdd : d = d' := Option.some.inj (hf ▸ hd')
    subst hdd
    split at h
    · rename_i parent hl
      split at h
      · exact (Option.some.inj h).symm
      · exact absurd h (by simp)
    · exact absurd h (by simp)
  · rename_i hf
    refine ⟨fun d hd => absurd (hf ▸ hd) (by simp), fun _ => (Option.some.inj h).symm⟩

lemma resolveInput_isSome {deps : List Node} {invoked : List (String × WiredStep)}
    {x : String}
    (h : ∀ d, deps.find? (fun d => d.outputs.contains x) = some d →
        ∃ w, dictLookup d.name invoked = some w ∧
          w.cmd.outputs.contains (sanitizeParamName x) = true) :
    ∃ b, resolveInput deps invoked x = some b := by
  unfold resolveInput
  cases hf : deps.find? (fun d => d.outputs.contains x) with
  | none => exact ⟨Binding.raw x, rfl⟩
  | some d =>
    rcases h d hf with ⟨w, hw, hc⟩
    exact ⟨Binding.fromStep d.name (sanitizeParamName x), by simp [hw]; simpa using hc⟩

lemma resolveInputs_isSome {deps : List Node} {invoked : List (String × WiredStep)} :
    ∀ {inputs : List String},
      (∀ x ∈ inputs, ∃ b, resolveInput deps invoked x = some b) →
      ∃ bs, resolveInputs deps invoked inputs = some bs
  | [], _ => ⟨[], rfl⟩
  | i :: is, h => by
    rcases h i (List.mem_cons_self i is) with ⟨b, hb⟩
    rcases resolveInputs_isSome (fun x hx => h x (List.mem_cons_of_mem i hx)) with ⟨bs, hbs⟩
    refine ⟨(sanitizeParamName i, b) :: bs, ?_⟩
    unfold resolveInputs
    rw [hb, hbs]

lemma resolveInputs_forward {deps : List Node} {invoked : List (String × WiredStep)} :
    ∀ {inputs : List String} {bs : List (String × Binding)},
      resolveInputs deps invoked inputs = some bs →
      ∀ x ∈ inputs, ∃ b, (sanitizeParamName x, b) ∈ bs ∧
        resolveInput deps invoked x = some b
  | [], _, _, x, hx => by simp at hx
  | i :: is, bs, h, x, hx => by
    unfold resolveInputs at h
    split at h
    · exact absurd h (by simp)
    · rename_i b hb
      split at h
      · exact absurd h (by simp)
      · rename_i rest hbs
        have hcons : (sanitizeParamName i, b) :: rest = bs := Option.some.inj h
        rcases List.mem_cons.mp hx with he | hx'
        · subst he
          exact ⟨b, hcons ▸ List.mem_cons_self _ _, hb⟩
        · rcases resolveInputs_forward hbs x hx' with ⟨b', hb'mem, hb'⟩
          exact ⟨b', hcons ▸ List.mem_cons_of_mem _ hb'mem, hb'⟩

lemma resolveInputs_backward {deps : List Node} {invoked : List (String × WiredStep)} :
    ∀ {inputs : List String} {bs : List (String × Binding)},
      resolveInputs deps invoked inputs = some bs →
      ∀ p ∈ bs, ∃ x ∈ inputs, p.1 = sanitizeParamName x ∧
        resolveInput deps invoked x = some p.2
  | [], bs, h, p, hp => by
    have : bs = [] := (Option.some.inj h).symm
    subst this
    simp at hp
  | i :: is, bs, h, p, hp => by
    unfold resolveInputs at h
    split at h
    · exact absurd h (by simp)
    · rename_i b hb
      split at h
      · exact absurd h (by simp)
      · rename_i rest hbs
        have hcons : (sanitizeParamName i, b) :: rest = bs := Option.some.inj h
        rcases List.mem_cons.mp (hcons ▸ hp) with he | hp'
        · exact ⟨i, List.mem_cons_self i is, by rw [he], by rw [he]; exact hb⟩
        · rcases resolveInputs_backward hbs p hp' with ⟨x, hxmem, hx1, hx2⟩
          exact ⟨x, List.mem_cons_of_mem i hxmem, hx1, hx2⟩

/-! ## The wiring invariant -/

/-- The `azure_inputs` dict a node was invoked with is exactly the
resolution of its declared inputs: every entry comes from some declared
input and every declared input contributes its entry. -/
def bindingsOk (pl : Pipeline) (n : Node) (bs : List (String × Binding)) : Prop :=
  (∀ p ∈ bs, ∃ x ∈ n.inputs, p.1 = sanitizeParamName x ∧
      bindingSpec (nodeDependencies pl n) x p.2) ∧
  (∀ x ∈ n.inputs, ∃ b, (sanitizeParamName x, b) ∈ bs ∧
      bindingSpec (nodeDependencies pl n) x b)

/-- One entry of `invoked_components` corresponds to one pipeline node:
keyed by the node's name, carrying its constructed command and correctly
resolved input bindings. -/
def stepRel (cfg : GeneratorCfg) (pl : Pipeline) (rid : String)
    (nd : Node) (p : String × WiredStep) : Prop :=
  p.1 = nd.name ∧ p.2.cmd = constructAzureCommand cfg pl nd rid ∧
    bindingsOk pl nd p.2.bindings

/-- `invoked_components` is in lockstep with the processed node prefix. -/
def wiredInv (cfg : GeneratorCfg) (pl : Pipeline) (rid : String)
    (pre : List Node) (acc : List (String × WiredStep)) : Prop :=
  List.Forall₂ (stepRel cfg pl rid) pre acc

lemma forall₂_exists_of_mem_left {α β : Type} {R : α → β → Prop} {l1 : List α}
    {l2 : List β} (h : List.Forall₂ R l1 l2) {a : α} (ha : a ∈ l1) :
    ∃ b ∈ l2, R a b := by
  induction h with
  | nil => simp at ha
  | cons hr _ ih =>
    rcases List.mem_cons.mp ha with rfl | ha'
    · exact ⟨_, List.mem_cons_self _ _, hr⟩
    · rcases ih ha' with ⟨b, hb, hrb⟩
      exact ⟨b, List.mem_cons_of_mem _ hb, hrb⟩

lemma wiredInv_map_fst {cfg : GeneratorCfg} {pl : Pipeline} {rid : String}
    {pre : List Node} {acc : List (String × WiredStep)}
    (h : wiredInv cfg pl rid pre acc) :
    acc.map Prod.fst = pre.map Node.name := by
  induction h with
  | nil => rfl
  | cons hr _ ih => simp [hr.1, ih]

/-- The pipeline's node sequence is in valid topological order: every
dependency of a node appears strictly before it. -/
def topoSorted (pl : Pipeline) : Prop :=
  ∀ i (hi : i < pl.nodes.length),
    ∀ d ∈ nodeDependencies pl (pl.nodes.get ⟨i, hi⟩), d ∈ pl.nodes.take i

/-- Main loop invariant of `_connect_commands`: processing the remaining
suffix of a topologically ordered node list from a correctly wired prefix
succeeds and extends the correspondence to the whole list. -/
lemma connectAux_total (cfg : GeneratorCfg) (pl : Pipeline) (rid : String)
    (hnodup : (pl.nodes.map Node.name).Nodup) :
    ∀ (suf pre : List Node) (acc : List (String × WiredStep)),
      pl.nodes = pre ++ suf →
      (∀ i (hi : i < suf.length),
        ∀ d ∈ nodeDependencies pl (suf.get ⟨i, hi⟩), d ∈ pre ++ suf.take i) →
      wiredInv cfg pl rid pre acc →
      ∃ res, connectAux pl (buildCommands cfg pl rid) acc suf = some res ∧
        wiredInv cfg pl rid (pre ++ suf) res := by
  intro suf
  induction suf with
  | nil =>
    intro pre acc hsplit _ hinv
    exact ⟨acc, rfl, by simpa using hinv⟩
  | cons n rest ih =>
    intro pre acc hsplit htopo hinv
    have hnmem : n ∈ pl.nodes := by
      rw [hsplit]; exact List.mem_append_right pre (List.mem_cons_self n rest)
    have hcmd := dictLookup_buildCommands cfg rid hnodup hnmem
    have hdeps : ∀ d ∈ nodeDependencies pl n, d ∈ pre := by
      have h0 := htopo 0 (by simp)
      simpa using h0
    have hres : ∃ bs, resolveInputs (nodeDependencies pl n) acc n.inputs = some bs := by
      apply resolveInputs_isSome
      intro x _
      apply resolveInput_isSome
      intro d hfd
      have hdmem : d ∈ nodeDependencies pl n := List.mem_of_find?_eq_some hfd
      have hdout : x ∈ d.outputs := by
        have := List.find?_some hfd
        simpa using this
      rcases forall₂_exists_of_mem_left hinv (hdeps d hdmem) with ⟨p, hpmem, hrel⟩
      refine ⟨p.2, ?_, ?_⟩
      · have hkeys : (acc.map Prod.fst).Nodup := by
          rw [wiredInv_map_fst hinv]
          have hall : ((pre ++ n :: rest).map Node.name).Nodup := hsplit ▸ hnodup
          rw [List.map_append] at hall
          exact hall.of_append_left
        have hpm : (d.name, p.2) ∈ acc := by
          have h1 : p.1 = d.name := hrel.1
          rw [← h1]
          exact hpmem
        exact dictLookup_of_nodup_mem hkeys hpm
      · rw [hrel.2.1]
        show ((constructAzureCommand cfg pl d rid).outputs).contains
          (sanitizeParamName x) = true
        simp only [constructAzureCommand]
        simpa using List.mem_map_of_mem sanitizeParamName hdout
    rcases hres with ⟨bs, hbs⟩
    have hstep : connectAux pl (buildCommands cfg pl rid) acc (n :: rest)
        = connectAux pl (buildCommands cfg pl rid)
            (acc ++ [(n.name, ⟨constructAzureCommand cfg pl n rid, bs⟩)]) rest := by
      conv_lhs => rw [connectAux]
      rw [hcmd, hbs]
    have hok : bindingsOk pl n bs := by
      constructor
      · intro p hp
        rcases resolveInputs_backward hbs p hp with ⟨x, hxmem, hx1, hx2⟩
        exact ⟨x, hxmem, hx1, resolveInput_spec hx2⟩
      · intro x hx
        rcases resolveInputs_forward hbs x hx with ⟨b, hbmem, hb⟩
        exact ⟨b, hbmem, resolveInput_spec hb⟩
    have hinv' : wiredInv cfg pl rid (pre ++ [n])
        (acc ++ [(n.name, ⟨constructAzureCommand cfg pl n rid, bs⟩)]) := by
      exact List.rel_append hinv (List.Forall₂.cons ⟨rfl, rfl, hok⟩ List.Forall₂.nil)
    have hsplit' : pl.nodes = (pre ++ [n]) ++ rest := by
      rw [hsplit, List.append_assoc]
      rfl
    have htopo' : ∀ i (hi : i < rest.length),
        ∀ d ∈ nodeDependencies pl (rest.get ⟨i, hi⟩), d ∈ (pre ++ [n]) ++ rest.take i := by
      intro i hi d hd
      have hi' : i + 1 < (n :: rest).length := by simpa using Nat.succ_lt_succ hi
      have hget : (n :: rest).get ⟨i + 1, hi'⟩ = rest.get ⟨i, hi⟩ := rfl
      have := htopo (i + 1) hi' d (by rw [hget]; exact hd)
      simpa [List.append_assoc, List.take_succ_cons] using this
    rcases ih (pre ++ [n]) _ hsplit' htopo' hinv' with ⟨res, hrun, hinvres⟩
    refine ⟨res, ?_, ?_⟩
    · rw [hstep]
      exact hrun
    · have : (pre ++ [n]) ++ rest = pre ++ n :: rest := by
        rw [List.append_assoc]
        rfl
      rw [← this]
      exact hinvres

/-- Wiring the whole pipeline from scratch: `_connect_commands` over the
`commands` dict built by `generate` succeeds on a topologically sorted
pipeline with unique node names, producing one correctly wired component
per node in processing order. -/
lemma generateWired_total (cfg : GeneratorCfg) (pl : Pipeline) (rid : String)
    (hnodup : (pl.nodes.map Node.name).Nodup) (htopo : topoSorted pl) :
    ∃ invoked, generateWired cfg pl rid = some invoked ∧
      wiredInv cfg pl rid pl.nodes invoked := by
  have h := connectAux_total cfg pl rid hnodup pl.nodes [] []
    (by simp) (by simpa using htopo) List.Forall₂.nil
  simpa [generateWired, connectCommands] using h

lemma wiredInv_lookup {cfg : GeneratorCfg} {pl : Pipeline} {rid : String}
    {invoked : List (String × WiredStep)}
    (hnodup : (pl.nodes.map Node.name).Nodup)
    (hinv : wiredInv cfg pl rid pl.nodes invoked) {m : Node} (hm : m ∈ pl.nodes) :
    ∃ w, dictLookup m.name invoked = some w ∧
      w.cmd = constructAzureCommand cfg pl m rid ∧ bindingsOk pl m w.bindings := by
  rcases forall₂_exists_of_mem_left hinv hm with ⟨p, hpmem, hrel⟩
  have hkeys : (invoked.map Prod.fst).Nodup := by
    rw [wiredInv_map_fst hinv]
    exact hnodup
  refine ⟨p.2, ?_, hrel.2.1, hrel.2.2⟩
  apply dictLookup_of_nodup_mem hkeys
  rw [← hrel.1]
  exact hpmem

/-! ## Lemmas about `_gather_pipeline_outputs` -/

lemma gatherAux_ok {cfg : GeneratorCfg} {pl : Pipeline} {rid : String}
    {invoked : List (String × WiredStep)}
    (hnodup : (pl.nodes.map Node.name).Nodup)
    (hinv : wiredInv cfg pl rid pl.nodes invoked) :
    ∀ (outs : List String), (∀ o ∈ outs, ∃ m ∈ pl.nodes, o ∈ m.outputs) →
      ∃ res, gatherAux pl invoked outs = Except.ok res ∧
        ∀ o ∈ outs, ∀ src, pl.nodes.find? (fun n => n.outputs.contains o) = some src →
          (sanitizeParamName o, Binding.fromStep src.name (sanitizeParamName o)) ∈ res
  | [], _ => ⟨[], rfl, by simp⟩
  | o :: os, h => by
    have hprod := h o (List.mem_cons_self o os)
    have hfind : (pl.nodes.find? (fun n => n.outputs.contains o)).isSome := by
      rw [List.find?_isSome]
      rcases hprod with ⟨m, hm, hom⟩
      exact ⟨m, hm, by simpa using hom⟩
    rcases Option.isSome_iff_exists.mp hfind with ⟨src, hsrc⟩
    have hsrcmem : src ∈ pl.nodes := List.mem_of_find?_eq_some hsrc
    have hsrcout : o ∈ src.outputs := by
      have := List.find?_some hsrc
      simpa using this
    rcases wiredInv_lookup hnodup hinv hsrcmem with ⟨w, hw, hwcmd, _⟩
    have hcont : w.cmd.outputs.contains (sanitizeParamName o) = true := by
      rw [hwcmd]
      show ((constructAzureCommand cfg pl src rid).outputs).contains
        (sanitizeParamName o) = true
      simp only [constructAzureCommand]
      simpa using List.mem_map_of_mem sanitizeParamName hsrcout
    rcases gatherAux_ok hnodup hinv os
      (fun q hq => h q (List.mem_cons_of_mem o hq)) with ⟨res, hres, hmem⟩
    refine ⟨(sanitizeParamName o, Binding.fromStep src.name (sanitizeParamName o)) :: res,
      ?_, ?_⟩
    · unfold gatherAux
      have hsrc2 : List.find? (fun n => decide (o ∈ n.outputs)) pl.nodes = some src := by
        simpa using hsrc
      have hcont2 : sanitizeParamName o ∈ w.cmd.outputs := by simpa using hcont
      simp [hsrc2, hw, hcont2, hres]
    · intro q hq src' hsrc'
      rcases List.mem_cons.mp hq with he | hq'
      · subst he
        have : src' = src := Option.some.inj (hsrc'.symm.trans hsrc)
        subst this
        exact List.mem_cons_self _ _
      · exact List.mem_cons_of_mem _ (hmem q hq' src' hsrc')

lemma gatherAux_first_missing {cfg : GeneratorCfg} {pl : Pipeline} {rid : String}
    {invoked : List (String × WiredStep)}
    (hnodup : (pl.nodes.map Node.name).Nodup)
    (hinv : wiredInv cfg pl rid pl.nodes invoked) :
    ∀ (dpre : List String) (o : String) (dsuf : List String),
      (∀ q ∈ dpre, ∃ m ∈ pl.nodes, q ∈ m.outputs) →
      (∀ m ∈ pl.nodes, o ∉ m.outputs) →
      gatherAux pl invoked (dpre ++ o :: dsuf)
        = Except.error (GatherError.missingProducer o)
  | [], o, dsuf, _, ho => by
    have hnone : pl.nodes.find? (fun n => n.outputs.contains o) = none := by
      rw [List.find?_eq_none]
      intro m hm
      simpa using ho m hm
    show gatherAux pl invoked (o :: dsuf) = Except.error (GatherError.missingProducer o)
    unfold gatherAux
    rw [hnone]
  | q :: dpre, o, dsuf, hpre, ho => by
    have hprod := hpre q (List.mem_cons_self q dpre)
    have hfind : (pl.nodes.find? (fun n => n.outputs.contains q)).isSome := by
      rw [List.find?_isSome]
      rcases hprod with ⟨m, hm, hom⟩
      exact ⟨m, hm, by simpa using hom⟩
    rcases Option.isSome_iff_exists.mp hfind with ⟨src, hsrc⟩
    have hsrcmem : src ∈ pl.nodes := List.mem_of_find?_eq_some hsrc
    have hsrcout : q ∈ src.outputs := by
      have := List.find?_some hsrc
      simpa using this
    rcases wiredInv_lookup hnodup hinv hsrcmem with ⟨w, hw, hwcmd, _⟩
    have hcont : w.cmd.outputs.contains (sanitizeParamName q) = true := by
      rw [hwcmd]
      show ((constructAzureCommand cfg pl src rid).outputs).contains
        (sanitizeParamName q) = true
      simp only [constructAzureCommand]
      simpa using List.mem_map_of_mem sanitizeParamName hsrcout
    have hrec := gatherAux_first_missing hnodup hinv dpre o dsuf
      (fun r hr => hpre r (List.mem_cons_of_mem q hr)) ho
    show gatherAux pl invoked (q :: (dpre ++ o :: dsuf))
      = Except.error (GatherError.missingProducer o)
    unfold gatherAux
    have hsrc2 : List.find? (fun n => decide (q ∈ n.outputs)) pl.nodes = some src := by
      simpa using hsrc
    have hcont2 : sanitizeParamName q ∈ w.cmd.outputs := by simpa using hcont
    simp [hsrc2, hw, hcont2, hrec]

/-! ## Further character lemmas -/

lemma char_toNat_ofNat {n : Nat} (h : n < 55296) : (Char.ofNat n).toNat = n := by
  unfold Char.ofNat
  rw [dif_pos (Or.inl h)]
  rfl

lemma isAllowedChar_iff (c : Char) :
    isAllowedChar c = true ↔
      (('a' ≤ c ∧ c ≤ 'z') ∨ ('0' ≤ c ∧ c ≤ '9') ∨ c = '_') := by
  unfold isAllowedChar
  simp only [Bool.or_eq_true, Bool.and_eq_true, decide_eq_true_eq, beq_iff_eq]
  constructor
  · rintro ((⟨h1, h2⟩ | ⟨h1, h2⟩) | h)
    · exact Or.inl ⟨h1, h2⟩
    · exact Or.inr (Or.inl ⟨h1, h2⟩)
    · exact Or.inr (Or.inr (Char.ext (UInt32.ext_iff.mpr h)))
  · rintro (⟨h1, h2⟩ | ⟨h1, h2⟩ | rfl)
    · exact Or.inl (Or.inl ⟨h1, h2⟩)
    · exact Or.inl (Or.inr ⟨h1, h2⟩)
    · exact Or.inr rfl

lemma pyLowerChar_ne_dot {c : Char} (hc : c ≠ '.') : pyLowerChar c ≠ '.' := by
  unfold pyLowerChar
  split
  · rename_i h
    intro he
    have hn : (Char.ofNat (c.toNat + 32)).toNat = c.toNat + 32 :=
      char_toNat_ofNat (by omega)
    rw [he] at hn
    have h46 : ('.' : Char).toNat = 46 := rfl
    omega
  · exact hc

/-! ## Claim theorems: the sanitizers -/

/-- Claim C7: `_sanitize_param_name` returns the string obtained by
lower-casing its argument and then replacing every character outside the
class `[a-z0-9_]` with `_`; it is a total pure function over arbitrary
strings, and sanitizing `"Some Value!"` yields `"some_value_"`. -/
theorem sanitize_param_name_spec :
    (∀ s : String, sanitizeParamName s = reSubDisallowed (pyLower s)) ∧
    (∀ s : String, (reSubDisallowed s).data
        = s.data.map (fun c => if isAllowedChar c then c else '_')) ∧
    (∀ s : String, (pyLower s).data = s.data.map pyLowerChar) ∧
    (∀ c : Char, isAllowedChar c = true ↔
      (('a' ≤ c ∧ c ≤ 'z') ∨ ('0' ≤ c ∧ c ≤ '9') ∨ c = '_')) ∧
    sanitizeParamName "Some Value!" = "some_value_" :=
  ⟨fun _ => rfl, fun _ => rfl, fun _ => rfl, isAllowedChar_iff, by decide⟩

/-- Claim C8: `_sanitize_azure_name` lower-cases its argument and expands
every literal `.` to `__` (characterized by: it is a homomorphism for
string concatenation, maps `"."` to `"__"` and any other single character
to its lower-case); the built command step's identifier is this
sanitization of the node name while the display name is the node name
unmodified, and `"my.node"` yields `"my__node"`. -/
theorem sanitize_azure_name_spec :
    (∀ s t : String, sanitizeAzureName (s ++ t)
        = sanitizeAzureName s ++ sanitizeAzureName t) ∧
    sanitizeAzureName "." = "__" ∧
    (∀ c : Char, c ≠ '.' →
      sanitizeAzureName (String.mk [c]) = String.mk [pyLowerChar c]) ∧
    (∀ (cfg : GeneratorCfg) (pl : Pipeline) (n : Node) (rid : String),
      (constructAzureCommand cfg pl n rid).name = sanitizeAzureName n.name ∧
      (constructAzureCommand cfg pl n rid).display_name = n.name) ∧
    sanitizeAzureName "my.node" = "my__node" := by
  refine ⟨?_, by decide, ?_, fun cfg pl n rid => ⟨rfl, rfl⟩, by decide⟩
  · intro s t
    apply String.data_ext
    simp [sanitizeAzureName, pyLower, String.data_append]
  · intro c hc
    have hne := pyLowerChar_ne_dot hc
    apply String.data_ext
    simp [sanitizeAzureName, pyLower, hne]

/-- Claim C9: the parameter sanitizer is idempotent — sanitizing any
string twice equals sanitizing it once. -/
theorem sanitize_param_name_idempotent :
    ∀ s : String, sanitizeParamName (sanitizeParamName s) = sanitizeParamName s := by
  intro s
  apply String.data_ext
  rw [sanitizeParamName_data, sanitizeParamName_data, List.map_map]
  exact List.map_congr_left (fun c _ => sanitizeParamChar_idem c)

/-! ## Claim theorems: command construction -/

/-- Claim C3: `_prepare_command` builds, for every node, exactly the
single-node invocation (running that node in isolation under the
configured kedro environment and pipeline name); when and only when the
node declares outputs, the invocation is followed by one placeholder
write per declared output, all joined by the shell operator `" && "` so
that the writes are success-gated; a node with no outputs gets the bare
invocation. -/
theorem prepare_command_spec (env pn : String) (node : Node) :
    (node.outputs = [] → prepareCommand env pn node = nodeInvocation env pn node.name) ∧
    (node.outputs ≠ [] → prepareCommand env pn node
        = nodeInvocation env pn node.name ++ " && "
          ++ String.intercalate " && " (node.outputs.map placeholderWrite)) ∧
    (∀ d : String, placeholderWrite d
        = "echo \x27Show must go on!\x27 > $\x7b\x7boutputs."
          ++ sanitizeParamName d ++ "\x7d\x7d/output.txt"
      ∧ ("Show must go on!" : String) ≠ "") ∧
    nodeInvocation env pn node.name
      = "cd /home/kedro && kedro run -e " ++ env ++ " --pipeline=" ++ pn ++ " --node="
        ++ node.name ++ " --runner=kedroazureml.azurerunner.AzurePipelinesRunner" := by
  refine ⟨?_, ?_, fun d => ⟨rfl, by decide⟩, rfl⟩
  · intro h
    unfold prepareCommand
    rw [h]
    simp
  · intro h
    have he : node.outputs.isEmpty = false := by
      simpa [List.isEmpty_iff] using h
    unfold prepareCommand
    rw [he]
    simp [String.append_assoc]

/-- Claim C4: lowering is deterministic — two lowering invocations over
the same pipeline with pointwise-equal configuration (pipeline name,
kedro environment, docker-image override, storage credential,
temporary-storage location, default image) and the same fixed run
identifier produce byte-identical command strings and serialized
run-context environment payloads for every node. -/
theorem lowering_deterministic (cfg1 cfg2 : GeneratorCfg) (rid1 rid2 : String)
    (hpn : cfg1.pipeline_name = cfg2.pipeline_name)
    (henv : cfg1.kedro_environment = cfg2.kedro_environment)
    (hdi : cfg1.docker_image = cfg2.docker_image)
    (hkey : cfg1.storage_account_key = cfg2.storage_account_key)
    (hts : cfg1.temporary_storage = cfg2.temporary_storage)
    (hdd : cfg1.default_docker_image = cfg2.default_docker_image)
    (hrid : rid1 = rid2) (pl : Pipeline) (node : Node) :
    (constructAzureCommand cfg1 pl node rid1).command
        = (constructAzureCommand cfg2 pl node rid2).command ∧
    (constructAzureCommand cfg1 pl node rid1).environment_variables
        = (constructAzureCommand cfg2 pl node rid2).environment_variables := by
  have hc : cfg1 = cfg2 := by
    cases cfg1
    cases cfg2
    simp_all
  subst hc
  subst hrid
  exact ⟨rfl, rfl⟩

/-- Claim C6: for every node input the built command declares an input
under the sanitized parameter name, string-typed exactly when the dataset
is among the pipeline's externally declared inputs and a generic opaque
artifact otherwise; every node output is declared under its sanitized
name as a generic artifact output. -/
theorem command_io_declarations (cfg : GeneratorCfg) (pl : Pipeline) (node : Node)
    (rid : String) :
    (∀ x ∈ node.inputs, ∃ decl,
      (sanitizeParamName x, decl) ∈ (constructAzureCommand cfg pl node rid).inputs ∧
      (decl = AzInputDecl.stringInput ↔ x ∈ pl.externalInputs) ∧
      (decl = AzInputDecl.genericInput ↔ x ∉ pl.externalInputs)) ∧
    (∀ y ∈ node.outputs,
      sanitizeParamName y ∈ (constructAzureCommand cfg pl node rid).outputs) := by
  constructor
  · intro x hx
    refine ⟨if pl.externalInputs.contains x then AzInputDecl.stringInput
        else AzInputDecl.genericInput, ?_, ?_, ?_⟩
    · exact List.mem_map_of_mem _ hx
    · by_cases hc : x ∈ pl.externalInputs
      · have hb : pl.externalInputs.contains x = true := by simpa using hc
        rw [if_pos hb]
        simp [hc]
      · have hb : ¬ (pl.externalInputs.contains x = true) := by simpa using hc
        rw [if_neg hb]
        simp [hc]
    · by_cases hc : x ∈ pl.externalInputs
      · have hb : pl.externalInputs.contains x = true := by simpa using hc
        rw [if_pos hb]
        simp [hc]
      · have hb : ¬ (pl.externalInputs.contains x = true) := by simpa using hc
        rw [if_neg hb]
        simp [hc]
  · intro y hy
    exact List.mem_map_of_mem _ hy

/-- Claim C10: the built step's container image equals the docker-image
override only when the override is a truthy (non-`None`, non-empty)
string; a `None` or empty-string override falls back to the configured
default image. -/
theorem docker_image_override (cfg : GeneratorCfg) (pl : Pipeline) (node : Node)
    (rid : String) :
    (∀ s, cfg.docker_image = some s → s ≠ "" →
      (constructAzureCommand cfg pl node rid).image = s) ∧
    (cfg.docker_image = none →
      (constructAzureCommand cfg pl node rid).image = cfg.default_docker_image) ∧
    (cfg.docker_image = some "" →
      (constructAzureCommand cfg pl node rid).image = cfg.default_docker_image) := by
  have himg : (constructAzureCommand cfg pl node rid).image
      = pyOrStr cfg.docker_image cfg.default_docker_image := rfl
  refine ⟨?_, ?_, ?_⟩
  · intro s hs hne
    rw [himg, hs]
    show (if s = "" then cfg.default_docker_image else s) = s
    rw [if_neg hne]
  · intro hn
    rw [himg, hn]
    rfl
  · intro hs
    rw [himg, hs]
    show (if ("" : String) = "" then cfg.default_docker_image else "")
      = cfg.default_docker_image
    rw [if_pos rfl]

/-! ## Claim theorems: graph wiring and output resolution -/

/-- Claim C1: for every node input, when some node in the consuming
node's dependency set lists the dataset among its outputs the input is
bound to that dependency's already-wired step's output handle under the
sanitized dataset name, and otherwise to the raw, unsanitized dataset
name; consequently, under the pipeline invariant, an input produced by no
node (in particular an externally supplied one) is bound to the raw name
and an input with a unique resolvable producer is bound to that
producer's output handle. -/
theorem connect_commands_input_binding (cfg : GeneratorCfg) (pl : Pipeline)
    (rid : String) (hnodup : (pl.nodes.map Node.name).Nodup) (htopo : topoSorted pl)
    (n : Node) (hn : n ∈ pl.nodes) (x : String) (hx : x ∈ n.inputs) :
    ∃ invoked w, generateWired cfg pl rid = some invoked ∧
      dictLookup n.name invoked = some w ∧
      (∀ d, (nodeDependencies pl n).find? (fun d => d.outputs.contains x) = some d →
        (sanitizeParamName x,
          Binding.fromStep d.name (sanitizeParamName x)) ∈ w.bindings) ∧
      ((nodeDependencies pl n).find? (fun d => d.outputs.contains x) = none →
        (sanitizeParamName x, Binding.raw x) ∈ w.bindings) ∧
      ((∀ m ∈ pl.nodes, x ∉ m.outputs) →
        (sanitizeParamName x, Binding.raw x) ∈ w.bindings) ∧
      (∀ p ∈ pl.nodes, x ∈ p.outputs →
        (∀ q ∈ pl.nodes, x ∈ q.outputs → q = p) →
        (sanitizeParamName x,
          Binding.fromStep p.name (sanitizeParamName x)) ∈ w.bindings) := by
  rcases generateWired_total cfg pl rid hnodup htopo with ⟨invoked, hgen, hinv⟩
  rcases wiredInv_lookup hnodup hinv hn with ⟨w, hw, _, hbo⟩
  rcases hbo.2 x hx with ⟨b, hbmem, hbspec⟩
  refine ⟨invoked, w, hgen, hw, ?_, ?_, ?_, ?_⟩
  · intro d hd
    rw [← hbspec.1 d hd]
    exact hbmem
  · intro hnone
    rw [← hbspec.2 hnone]
    exact hbmem
  · intro hext
    have hnone : (nodeDependencies pl n).find? (fun d => d.outputs.contains x)
        = none := by
      rw [List.find?_eq_none]
      intro d hd
      have hdm : d ∈ pl.nodes := List.mem_of_mem_filter hd
      simpa using hext d hdm
    rw [← hbspec.2 hnone]
    exact hbmem
  · intro p hp hpx huniq
    have hpd : p ∈ nodeDependencies pl n := by
      apply List.mem_filter.mpr
      refine ⟨hp, ?_⟩
      simp only [List.any_eq_true]
      exact ⟨x, hpx, by simpa using hx⟩
    have hfind : ((nodeDependencies pl n).find?
        (fun d => d.outputs.contains x)).isSome := by
      rw [List.find?_isSome]
      exact ⟨p, hpd, by simpa using hpx⟩
    rcases Option.isSome_iff_exists.mp hfind with ⟨d, hd⟩
    have hdm : d ∈ pl.nodes := List.mem_of_mem_filter (List.mem_of_find?_eq_some hd)
    have hdx : x ∈ d.outputs := by simpa using List.find?_some hd
    have hdp : d = p := huniq d hdm hdx
    rw [← hdp, ← hbspec.1 d hd]
    exact hbmem

/-- Claim C5: on a topologically ordered pipeline the wiring engine
processes the nodes in sequence order (the wired components are keyed by
the node names in that order) and every binding resolved from a
dependency refers to a wired step constructed strictly earlier: its step
name is among the keys of the strictly earlier entries. -/
theorem connect_commands_topological_soundness (cfg : GeneratorCfg) (pl : Pipeline)
    (rid : String) (hnodup : (pl.nodes.map Node.name).Nodup) (htopo : topoSorted pl) :
    ∃ invoked, generateWired cfg pl rid = some invoked ∧
      invoked.map Prod.fst = pl.nodes.map Node.name ∧
      ∀ i (hi : i < invoked.length), ∀ p ∈ (invoked.get ⟨i, hi⟩).2.bindings,
        ∀ s prm, p.2 = Binding.fromStep s prm →
          s ∈ (invoked.take i).map Prod.fst := by
  rcases generateWired_total cfg pl rid hnodup htopo with ⟨invoked, hgen, hinv⟩
  have hmap := wiredInv_map_fst hinv
  refine ⟨invoked, hgen, hmap, ?_⟩
  intro i hi p hp s prm hps
  have hlen : pl.nodes.length = invoked.length := hinv.length_eq
  have hpl : i < pl.nodes.length := by omega
  have hrel := hinv.get hpl hi
  rcases hrel.2.2.1 p hp with ⟨x, _, _, hxspec⟩
  cases hfd : (nodeDependencies pl (pl.nodes.get ⟨i, hpl⟩)).find?
      (fun d => d.outputs.contains x) with
  | none =>
    have hraw := hxspec.2 hfd
    rw [hps] at hraw
    exact absurd hraw (by simp)
  | some d =>
    have hbd := hxspec.1 d hfd
    rw [hps] at hbd
    have hs : s = d.name := by
      injection hbd with h1 _
    have hdmem : d ∈ nodeDependencies pl (pl.nodes.get ⟨i, hpl⟩) :=
      List.mem_of_find?_eq_some hfd
    have hdtake : d ∈ pl.nodes.take i := htopo i hpl d hdmem
    have hname : d.name ∈ (pl.nodes.take i).map Node.name :=
      List.mem_map_of_mem _ hdtake
    rw [hs, List.map_take, hmap, ← List.map_take]
    exact hname

/-- Claim C2: for every declared pipeline-level output, the output
resolver either records the sanitized output name mapped to the output
handle (under that same sanitized name) of the wired step of the unique
producing node, or — when no node outputs the dataset — fails on the
first such output with an error identifying the unresolvable dataset
name; it never silently drops a declared output. -/
theorem gather_pipeline_outputs_total (cfg : GeneratorCfg) (pl : Pipeline)
    (rid : String) (hnodup : (pl.nodes.map Node.name).Nodup) (htopo : topoSorted pl) :
    ∃ invoked, generateWired cfg pl rid = some invoked ∧
      ((∀ o ∈ pl.declaredOutputs, ∃ m ∈ pl.nodes, o ∈ m.outputs) →
        ∃ res, gatherPipelineOutputs pl invoked = Except.ok res ∧
          ∀ o ∈ pl.declaredOutputs, ∀ p ∈ pl.nodes, o ∈ p.outputs →
            (∀ q ∈ pl.nodes, o ∈ q.outputs → q = p) →
            (sanitizeParamName o,
              Binding.fromStep p.name (sanitizeParamName o)) ∈ res) ∧
      (∀ (dpre : List String) (o : String) (dsuf : List String),
        pl.declaredOutputs = dpre ++ o :: dsuf →
        (∀ q ∈ dpre, ∃ m ∈ pl.nodes, q ∈ m.outputs) →
        (∀ m ∈ pl.nodes, o ∉ m.outputs) →
        gatherPipelineOutputs pl invoked
          = Except.error (GatherError.missingProducer o)) := by
  rcases generateWired_total cfg pl rid hnodup htopo with ⟨invoked, hgen, hinv⟩
  refine ⟨invoked, hgen, ?_, ?_⟩
  · intro hall
    rcases gatherAux_ok hnodup hinv pl.declaredOutputs hall with ⟨res, hres, hmem⟩
    refine ⟨res, hres, ?_⟩
    intro o ho p hp hpo huniq
    have hfind : (pl.nodes.find? (fun m => m.outputs.contains o)).isSome := by
      rw [List.find?_isSome]
      exact ⟨p, hp, by simpa using hpo⟩
    rcases Option.isSome_iff_exists.mp hfind with ⟨src, hsrc⟩
    have hsm : src ∈ pl.nodes := List.mem_of_find?_eq_some hsrc
    have hso : o ∈ src.outputs := by simpa using List.find?_some hsrc
    have hsp : src = p := huniq src hsm hso
    rw [← hsp]
    exact hmem o ho src hsrc
  · intro dpre o dsuf hsplit hpre ho
    show gatherAux pl invoked pl.declaredOutputs = _
    rw [hsplit]
    exact gatherAux_first_missing hnodup hinv dpre o dsuf hpre ho

/-! ## Concrete example pipeline (the spec's example scenario)

Node `a` has no inputs and output `raw`; node `b` consumes `raw` and
produces `clean`; the declared pipeline output is `clean`. -/

def exNodeA : Node := ⟨"a", [], ["raw"]⟩

def exNodeB : Node := ⟨"b", ["raw"], ["clean"]⟩

def exPipeline : Pipeline := ⟨[exNodeA, exNodeB], [], ["clean"]⟩

def exCfg : GeneratorCfg := ⟨"p", "e", none, "", "ts", "img"⟩

def exCfgOverride : GeneratorCfg := ⟨"p", "e", some "custom", "", "ts", "img"⟩

/-- Witness for claim C1: in the example pipeline, node `b`'s input
`raw` is bound to node `a`'s output handle under the sanitized name. -/
theorem connect_commands_input_binding_witness :
    ∃ invoked w, generateWired exCfg exPipeline "r" = some invoked ∧
      dictLookup "b" invoked = some w ∧
      (sanitizeParamName "raw",
        Binding.fromStep "a" (sanitizeParamName "raw")) ∈ w.bindings := by
  obtain ⟨invoked, w, hgen, hw, _, _, _, hprod⟩ :=
    connect_commands_input_binding exCfg exPipeline "r" (by decide) (by unfold topoSorted; decide)
      exNodeB (by decide) "raw" (by decide)
  exact ⟨invoked, w, hgen, hw, hprod exNodeA (by decide) (by decide) (by decide)⟩

/-- Witness for claim C2: the example pipeline's declared output `clean`
resolves to node `b`'s output handle. -/
theorem gather_pipeline_outputs_total_witness :
    ∃ invoked, generateWired exCfg exPipeline "r" = some invoked ∧
      ∃ res, gatherPipelineOutputs exPipeline invoked = Except.ok res ∧
        (sanitizeParamName "clean",
          Binding.fromStep "b" (sanitizeParamName "clean")) ∈ res := by
  obtain ⟨invoked, hgen, hok, _⟩ :=
    gather_pipeline_outputs_total exCfg exPipeline "r" (by decide) (by unfold topoSorted; decide)
  obtain ⟨res, hres, hmem⟩ := hok (by decide)
  exact ⟨invoked, hgen, res, hres,
    hmem "clean" (by decide) exNodeB (by decide) (by decide) (by decide)⟩

/-- Witness for claim C3: node `b` has an output, so its command is the
bare invocation followed by the success-gated placeholder writes. -/
theorem prepare_command_spec_witness :
    prepareCommand "e" "p" exNodeB
      = nodeInvocation "e" "p" exNodeB.name ++ " && "
        ++ String.intercalate " && " (exNodeB.outputs.map placeholderWrite) :=
  (prepare_command_spec "e" "p" exNodeB).2.1 (by decide)

/-- Witness for claim C4: lowering the example node twice with the same
configuration and run identifier gives identical command strings and
environment payloads. -/
theorem lowering_deterministic_witness :
    (constructAzureCommand exCfg exPipeline exNodeA "r").command
        = (constructAzureCommand exCfg exPipeline exNodeA "r").command ∧
    (constructAzureCommand exCfg exPipeline exNodeA "r").environment_variables
        = (constructAzureCommand exCfg exPipeline exNodeA "r").environment_variables :=
  lowering_deterministic exCfg exCfg "r" "r" rfl rfl rfl rfl rfl rfl rfl
    exPipeline exNodeA

/-- Witness for claim C5: wiring the example pipeline succeeds and keys
the wired components by the node names in processing order. -/
theorem connect_commands_topological_soundness_witness :
    ∃ invoked, generateWired exCfg exPipeline "r" = some invoked ∧
      invoked.map Prod.fst = exPipeline.nodes.map Node.name := by
  obtain ⟨invoked, hgen, hmap, _⟩ :=
    connect_commands_topological_soundness exCfg exPipeline "r" (by decide) (by unfold topoSorted; decide)
  exact ⟨invoked, hgen, hmap⟩

/-- Witness for claim C6: node `b`'s input `raw` is not externally
declared in the example pipeline, so it is declared as a generic
artifact input. -/
theorem command_io_declarations_witness :
    ∃ decl, (sanitizeParamName "raw", decl)
        ∈ (constructAzureCommand exCfg exPipeline exNodeB "r").inputs ∧
      (decl = AzInputDecl.stringInput ↔ "raw" ∈ exPipeline.externalInputs) ∧
      (decl = AzInputDecl.genericInput ↔ "raw" ∉ exPipeline.externalInputs) :=
  (command_io_declarations exCfg exPipeline exNodeB "r").1 "raw" (by decide)

/-- Witness for claim C8: a single non-dot character is mapped to its
lower-case by the identifier sanitizer. -/
theorem sanitize_azure_name_spec_witness :
    sanitizeAzureName (String.mk ['A']) = String.mk [pyLowerChar 'A'] :=
  sanitize_azure_name_spec.2.2.1 'A' (by decide)

/-- Witness for claim C10: a non-empty docker-image override is used as
the step's container image. -/
theorem docker_image_override_witness :
    (constructAzureCommand exCfgOverride exPipeline exNodeA "r").image = "custom" :=
  (docker_image_override exCfgOverride exPipeline exNodeA "r").1 "custom" rfl (by decide)

end KedroAzureML
